import Mathlib

/-!
Shallow embedding of the Mutar typed-array toolkit
(UmamiAppearance/MutarJS, `src/Mutar.js`, bundled as `dist/Mutar.cjs`).

A typed view is modelled as an element type together with its buffer,
a list of bytes.  The integer element types (8/16/32-bit signed and
unsigned plus the clamped 8-bit type) are modelled exactly; the float
and 64-bit bigint element types would require IEEE-754 double
semantics (`Number(bigint)` rounding, float byte layout) and are kept
outside this development.

`DataView` reads and writes with an explicit byte-order flag are
modelled by `decodeElem` / `encodeElem`; `DataView.setIntN/setUintN`
wrap their argument modulo `2^bits`, which `encodeElem` reproduces
with `Int.emod`.
-/

/-- Little-endian base-256 value of a byte list (head is the least
significant byte). -/
def leVal : List Nat → Nat
  | [] => 0
  | b :: bs => b + 256 * leVal bs

/-- The `w` little-endian bytes of `n`, exactly as `DataView.setUintN`
lays a (wrapped) value out in little-endian order. -/
def natToBytesLE : Nat → Nat → List Nat
  | 0, _ => []
  | w + 1, n => n % 256 :: natToBytesLE w (n / 256)

theorem length_natToBytesLE (w : Nat) : ∀ n, (natToBytesLE w n).length = w := by
  induction w with
  | zero => intro n; rfl
  | succ w ih => intro n; simp [natToBytesLE, ih]

theorem natToBytesLE_lt (w : Nat) : ∀ n, ∀ b ∈ natToBytesLE w n, b < 256 := by
  induction w with
  | zero => intro n b hb; simp [natToBytesLE] at hb
  | succ w ih =>
    intro n b hb
    simp only [natToBytesLE, List.mem_cons] at hb
    rcases hb with h | h
    · subst h; exact Nat.mod_lt _ (by omega)
    · exact ih _ _ h

theorem leVal_natToBytesLE (w : Nat) : ∀ n, leVal (natToBytesLE w n) = n % 256 ^ w := by
  induction w with
  | zero => intro n; simp [natToBytesLE, leVal, Nat.mod_one]
  | succ w ih =>
    intro n
    have h1 : n % (256 * 256 ^ w) % 256 = n % 256 :=
      Nat.mod_mod_of_dvd n (Dvd.intro _ rfl)
    have h2 : n % (256 * 256 ^ w) / 256 = n / 256 % 256 ^ w :=
      Nat.mod_mul_right_div_self n 256 (256 ^ w)
    have h3 := Nat.div_add_mod (n % (256 * 256 ^ w)) 256
    simp only [natToBytesLE, leVal, ih]
    rw [pow_succ, mul_comm (256 ^ w) 256]
    omega

theorem natToBytesLE_leVal (bs : List Nat) (h : ∀ b ∈ bs, b < 256) :
    natToBytesLE bs.length (leVal bs) = bs := by
  induction bs with
  | nil => rfl
  | cons b bs ih =>
    have hb : b < 256 := h b (List.mem_cons_self _ _)
    have hmod : (b + 256 * leVal bs) % 256 = b := by
      rw [Nat.add_mul_mod_self_left, Nat.mod_eq_of_lt hb]
    have hdiv : (b + 256 * leVal bs) / 256 = leVal bs := by
      rw [Nat.add_mul_div_left _ _ (by omega : 0 < 256), Nat.div_eq_of_lt hb]
      omega
    simp only [List.length_cons, natToBytesLE, leVal, hmod, hdiv]
    rw [ih (fun x hx => h x (List.mem_cons_of_mem _ hx))]

theorem leVal_lt (bs : List Nat) (h : ∀ b ∈ bs, b < 256) :
    leVal bs < 256 ^ bs.length := by
  induction bs with
  | nil => simp [leVal]
  | cons b bs ih =>
    have hb : b < 256 := h b (List.mem_cons_self _ _)
    have := ih (fun x hx => h x (List.mem_cons_of_mem _ hx))
    simp only [leVal, List.length_cons, pow_succ]
    calc b + 256 * leVal bs < 256 + 256 * leVal bs := by omega
    _ = 256 * (leVal bs + 1) := by ring
    _ ≤ 256 * 256 ^ bs.length := by
        have : leVal bs + 1 ≤ 256 ^ bs.length := this
        exact Nat.mul_le_mul_left _ this
    _ = 256 ^ bs.length * 256 := by ring

theorem leVal_append (xs ys : List Nat) :
    leVal (xs ++ ys) = leVal xs + 256 ^ xs.length * leVal ys := by
  induction xs with
  | nil => simp [leVal]
  | cons x xs ih =>
    simp only [List.cons_append, leVal, List.length_cons, pow_succ]
    rw [List.append_eq, ih]; ring

theorem leVal_take (bs : List Nat) (k : Nat) (hk : k ≤ bs.length)
    (h : ∀ b ∈ bs, b < 256) : leVal (bs.take k) = leVal bs % 256 ^ k := by
  have hsplit : bs = bs.take k ++ bs.drop k := (List.take_append_drop k bs).symm
  have hlen : (bs.take k).length = k := by
    rw [List.length_take]; omega
  have hlt : leVal (bs.take k) < 256 ^ k := by
    have := leVal_lt (bs.take k) (fun b hb => h b (List.take_subset k bs hb))
    rwa [hlen] at this
  conv_rhs => rw [hsplit]
  rw [leVal_append, hlen, Nat.add_mul_mod_self_left, Nat.mod_eq_of_lt hlt]

/-- Fuel-driven worker for `chunks`; the fuel is the list length, so the
recursion is structural and evaluates inside the kernel. -/
def chunksGo (w : Nat) : Nat → List Nat → List (List Nat)
  | _, [] => []
  | 0, _ :: _ => []
  | fuel + 1, b :: bs => (b :: bs).take w :: chunksGo w fuel ((b :: bs).drop w)

/-- Split a byte list into consecutive groups of `w` bytes, mirroring how a
typed array of element width `w` partitions its buffer (the loop
`for (let i=0; i<obj.length; i++)` visiting offset `i*w`). -/
def chunks (w : Nat) (bs : List Nat) : List (List Nat) :=
  chunksGo w bs.length bs

theorem chunksGo_flatten (w : Nat) (hw : 0 < w) :
    ∀ (fuel : Nat) (bs : List Nat), bs.length ≤ fuel → (chunksGo w fuel bs).flatten = bs := by
  intro fuel
  induction fuel with
  | zero =>
    intro bs hbs
    cases bs with
    | nil => rfl
    | cons b t => simp at hbs
  | succ fuel ih =>
    intro bs hbs
    cases bs with
    | nil => rfl
    | cons b t =>
      have hstep : chunksGo w (fuel + 1) (b :: t) =
          (b :: t).take w :: chunksGo w fuel ((b :: t).drop w) := rfl
      have hflat : ((b :: t).take w :: chunksGo w fuel ((b :: t).drop w)).flatten =
          (b :: t).take w ++ (chunksGo w fuel ((b :: t).drop w)).flatten := rfl
      have hdlen : ((b :: t).drop w).length = (b :: t).length - w := List.length_drop _ _
      have hlen : (b :: t).length = t.length + 1 := rfl
      have hrec : (chunksGo w fuel ((b :: t).drop w)).flatten = (b :: t).drop w :=
        ih _ (by omega)
      rw [hstep, hflat, hrec]
      exact List.take_append_drop w (b :: t)

theorem chunks_flatten (w : Nat) (hw : 0 < w) (bs : List Nat) :
    (chunks w bs).flatten = bs :=
  chunksGo_flatten w hw bs.length bs le_rfl

theorem chunksGo_length_mem (w : Nat) (hw : 0 < w) :
    ∀ (fuel : Nat) (bs : List Nat), bs.length ≤ fuel → w ∣ bs.length →
      ∀ c ∈ chunksGo w fuel bs, c.length = w := by
  intro fuel
  induction fuel with
  | zero =>
    intro bs hbs _ c hc
    cases bs with
    | nil => simp [chunksGo] at hc
    | cons b t => simp at hbs
  | succ fuel ih =>
    intro bs hbs hdvd c hc
    cases bs with
    | nil => simp [chunksGo] at hc
    | cons b t =>
      have hlenpos : 0 < (b :: t).length := by simp
      have hwle : w ≤ (b :: t).length := Nat.le_of_dvd hlenpos hdvd
      have hdlen : ((b :: t).drop w).length = (b :: t).length - w := List.length_drop _ _
      have hlen : (b :: t).length = t.length + 1 := rfl
      simp only [chunksGo, List.mem_cons] at hc
      rcases hc with h | h
      · subst h; rw [List.length_take]; omega
      · refine ih ((b :: t).drop w) (by omega) ?_ c h
        rw [hdlen]
        exact Nat.dvd_sub' hdvd dvd_rfl

theorem chunks_length_mem (w : Nat) (hw : 0 < w) (bs : List Nat)
    (hdvd : w ∣ bs.length) : ∀ c ∈ chunks w bs, c.length = w :=
  chunksGo_length_mem w hw bs.length bs le_rfl hdvd

theorem chunksGo_count (w : Nat) (hw : 0 < w) :
    ∀ (fuel : Nat) (bs : List Nat), bs.length ≤ fuel → w ∣ bs.length →
      (chunksGo w fuel bs).length = bs.length / w := by
  intro fuel
  induction fuel with
  | zero =>
    intro bs hbs _
    cases bs with
    | nil => simp [chunksGo]
    | cons b t => simp at hbs
  | succ fuel ih =>
    intro bs hbs hdvd
    cases bs with
    | nil => simp [chunksGo]
    | cons b t =>
      have hlenpos : 0 < (b :: t).length := by simp
      have hwle : w ≤ (b :: t).length := Nat.le_of_dvd hlenpos hdvd
      have hdlen : ((b :: t).drop w).length = (b :: t).length - w := List.length_drop _ _
      have hlen : (b :: t).length = t.length + 1 := rfl
      have hstep : chunksGo w (fuel + 1) (b :: t) =
          (b :: t).take w :: chunksGo w fuel ((b :: t).drop w) := rfl
      rw [hstep, List.length_cons,
        ih ((b :: t).drop w) (by omega) (by rw [hdlen]; exact Nat.dvd_sub' hdvd dvd_rfl),
        hdlen, Nat.div_eq_sub_div hw hwle]

theorem chunks_count (w : Nat) (hw : 0 < w) (bs : List Nat)
    (hdvd : w ∣ bs.length) : (chunks w bs).length = bs.length / w :=
  chunksGo_count w hw bs.length bs le_rfl hdvd

theorem chunksGo_subset (w : Nat) :
    ∀ (fuel : Nat) (bs : List Nat), ∀ c ∈ chunksGo w fuel bs, ∀ b ∈ c, b ∈ bs := by
  intro fuel
  induction fuel with
  | zero =>
    intro bs c hc
    cases bs with
    | nil => simp [chunksGo] at hc
    | cons x t => simp [chunksGo] at hc
  | succ fuel ih =>
    intro bs c hc b hb
    cases bs with
    | nil => simp [chunksGo] at hc
    | cons x t =>
      simp only [chunksGo, List.mem_cons] at hc
      rcases hc with h | h
      · subst h; exact List.take_subset _ _ hb
      · exact List.drop_subset _ _ (ih ((x :: t).drop w) c h b hb)

theorem chunks_subset (w : Nat) (bs : List Nat) :
    ∀ c ∈ chunks w bs, ∀ b ∈ c, b ∈ bs :=
  chunksGo_subset w bs.length bs

theorem chunksGo_of_uniform (w : Nat) (hw : 0 < w) :
    ∀ (L : List (List Nat)) (fuel : Nat), L.flatten.length ≤ fuel →
      (∀ c ∈ L, c.length = w) → chunksGo w fuel L.flatten = L := by
  intro L
  induction L with
  | nil =>
    intro fuel _ _
    cases fuel <;> rfl
  | cons c L ih =>
    intro fuel hfuel hlen
    have hc : c.length = w := hlen c (List.mem_cons_self _ _)
    have hcpos : 0 < c.length := by omega
    have hjoin : (c :: L).flatten = c ++ L.flatten := rfl
    have hflen : (c :: L).flatten.length = c.length + L.flatten.length := by
      rw [hjoin, List.length_append]
    cases fuel with
    | zero => omega
    | succ fuel =>
      rw [hjoin]
      cases c with
      | nil => simp at hcpos
      | cons x xs =>
        have hstep : chunksGo w (fuel + 1) ((x :: xs) ++ L.flatten) =
            ((x :: xs) ++ L.flatten).take w ::
              chunksGo w fuel (((x :: xs) ++ L.flatten).drop w) := rfl
        rw [hstep]
        have htake : ((x :: xs) ++ L.flatten).take w = x :: xs := by
          rw [← hc]; exact List.take_left _ _
        have hdrop : ((x :: xs) ++ L.flatten).drop w = L.flatten := by
          rw [← hc]; exact List.drop_left _ _
        rw [htake, hdrop,
          ih fuel (by omega) (fun d hd => hlen d (List.mem_cons_of_mem _ hd))]

theorem chunks_of_uniform (w : Nat) (hw : 0 < w) (L : List (List Nat))
    (hlen : ∀ c ∈ L, c.length = w) : chunks w L.flatten = L :=
  chunksGo_of_uniform w hw L L.flatten.length le_rfl hlen

/-- Element types of the registry (`Utils.ArrayTypes`), restricted to the
integer-valued entries; `Uint8ClampedArray` shares `getUint8`/`setUint8`
with `Uint8Array` in `Utils.ViewMethods`. -/
inductive ElemType where
  | int8
  | uint8
  | clamped
  | int16
  | uint16
  | int32
  | uint32
deriving DecidableEq, Repr

/-- Corresponds to `BYTES_PER_ELEMENT` of the matching typed-array class. -/
def bytesPerElement : ElemType → Nat
  | .int8 => 1
  | .uint8 => 1
  | .clamped => 1
  | .int16 => 2
  | .uint16 => 2
  | .int32 => 4
  | .uint32 => 4

/-- Whether the `DataView` get/set pair of the type is the signed one. -/
def isSigned : ElemType → Bool
  | .int8 => true
  | .int16 => true
  | .int32 => true
  | _ => false

/-- Number of raw values of one element: `256 ^ BYTES_PER_ELEMENT`. -/
def modulus (t : ElemType) : Nat := 256 ^ bytesPerElement t

theorem bytesPerElement_pos (t : ElemType) : 0 < bytesPerElement t := by
  cases t <;> decide

/-- Two's-complement reading of a raw value `n < m` (`m` the modulus). -/
def toSigned (m : Nat) (n : Nat) : Int :=
  if 2 * n < m then (n : Int) else (n : Int) - (m : Int)

/-- Raw value to element value, signed or unsigned interpretation. -/
def decAdj (sign : Bool) (m : Nat) (n : Nat) : Int :=
  if sign then toSigned m n else (n : Int)

/-- Byte list to raw value in the requested byte order: a `DataView`
get-operation reads the bytes at increasing offsets and composes them
least-significant-first when `le` and most-significant-first otherwise. -/
def decodeNat (le : Bool) (bs : List Nat) : Nat :=
  if le then leVal bs else leVal bs.reverse

/-- `view[get](offset, littleEndian)` on the element whose bytes are `bs`. -/
def decodeElem (t : ElemType) (le : Bool) (bs : List Nat) : Int :=
  decAdj (isSigned t) (modulus t) (decodeNat le bs)

/-- `view[set](offset, x, littleEndian)`: the value is wrapped modulo the
type's modulus (`ToIntN`/`ToUintN`) and laid out in the requested order. -/
def encodeElem (t : ElemType) (le : Bool) (x : Int) : List Nat :=
  let n := (x % (modulus t : Int)).toNat
  if le then natToBytesLE (bytesPerElement t) n
  else (natToBytesLE (bytesPerElement t) n).reverse

/-- Value range of an element type: what its canonical decoding can
produce (`-m/2 ≤ x < m/2` written without division for the signed case). -/
def inRange : Bool → Nat → Int → Prop
  | false, m, x => 0 ≤ x ∧ x < (m : Int)
  | true, m, x => -(m : Int) ≤ 2 * x ∧ 2 * x < (m : Int)

instance : (s : Bool) → (m : Nat) → (x : Int) → Decidable (inRange s m x)
  | false, m, x => inferInstanceAs (Decidable (0 ≤ x ∧ x < (m : Int)))
  | true, m, x => inferInstanceAs (Decidable (-(m : Int) ≤ 2 * x ∧ 2 * x < (m : Int)))

/-- The element value `x` survives re-encoding at type `t` unchanged. -/
def representable (t : ElemType) (x : Int) : Prop :=
  inRange (isSigned t) (modulus t) x

instance (t : ElemType) (x : Int) : Decidable (representable t x) :=
  inferInstanceAs (Decidable (inRange (isSigned t) (modulus t) x))

/-- The value an element of type `t` keeps after being wrapped to the
width of `t` (the "truncated" value of a forced narrowing). -/
def toWidth (t : ElemType) (x : Int) : Int :=
  decAdj (isSigned t) (modulus t) ((x % (modulus t : Int)).toNat)

/-- A typed array: constructor (element type) plus buffer bytes. -/
structure TypedView where
  type : ElemType
  bytes : List Nat
deriving DecidableEq, Repr

/-- `obj.length` of a typed array: buffer byte length over element width. -/
def elemCount (v : TypedView) : Nat :=
  v.bytes.length / bytesPerElement v.type

/-- Well-formedness every real typed array enjoys: bytes are octets and the
buffer is a whole number of elements (`byteLength = length * BYTES_PER_ELEMENT`). -/
def WF (v : TypedView) : Prop :=
  (∀ b ∈ v.bytes, b < 256) ∧ bytesPerElement v.type ∣ v.bytes.length

instance (v : TypedView) : Decidable (WF v) :=
  inferInstanceAs (Decidable (_ ∧ _))

/-- Native iteration of a typed array (`[...obj]`) read through an explicit
byte order: the decoded element values of each `w`-byte group. -/
def elems (v : TypedView) (le : Bool) : List Int :=
  (chunks (bytesPerElement v.type) v.bytes).map (decodeElem v.type le)

/-- Encode a value list back-to-back, as `TypedArray.from(values)` or a
loop of `view[set](i*w, values[i], le)` does. -/
def encBytes (t : ElemType) (le : Bool) (vals : List Int) : List Nat :=
  (vals.map (encodeElem t le)).flatten

/-- Build a typed array of type `t` holding `vals`. -/
def ofElems (t : ElemType) (le : Bool) (vals : List Int) : TypedView :=
  ⟨t, encBytes t le vals⟩

theorem length_encodeElem (t : ElemType) (le : Bool) (x : Int) :
    (encodeElem t le x).length = bytesPerElement t := by
  unfold encodeElem
  cases le <;> simp [length_natToBytesLE]

theorem encodeElem_lt (t : ElemType) (le : Bool) (x : Int) :
    ∀ b ∈ encodeElem t le x, b < 256 := by
  unfold encodeElem
  intro b hb
  cases le <;> simp at hb <;> exact natToBytesLE_lt _ _ _ hb

theorem encBytes_length (t : ElemType) (le : Bool) (vals : List Int) :
    (encBytes t le vals).length = vals.length * bytesPerElement t := by
  induction vals with
  | nil => simp [encBytes]
  | cons x xs ih =>
    simp only [encBytes, List.map_cons, List.flatten_cons, List.length_append,
      List.length_cons, length_encodeElem]
    rw [show (List.map (encodeElem t le) xs).flatten = encBytes t le xs from rfl, ih]
    ring

theorem encBytes_lt (t : ElemType) (le : Bool) (vals : List Int) :
    ∀ b ∈ encBytes t le vals, b < 256 := by
  intro b hb
  simp only [encBytes, List.mem_flatten, List.mem_map] at hb
  obtain ⟨c, ⟨x, _, hx⟩, hbc⟩ := hb
  subst hx
  exact encodeElem_lt t le x b hbc

theorem encBytes_append (t : ElemType) (le : Bool) (v1 v2 : List Int) :
    encBytes t le (v1 ++ v2) = encBytes t le v1 ++ encBytes t le v2 := by
  simp [encBytes]

theorem decodeNat_lt (t : ElemType) (le : Bool) (c : List Nat)
    (hc : c.length = bytesPerElement t) (hb : ∀ b ∈ c, b < 256) :
    decodeNat le c < modulus t := by
  unfold decodeNat modulus
  cases le with
  | false =>
    have := leVal_lt c.reverse (by simpa using hb)
    simpa [hc] using this
  | true =>
    have := leVal_lt c hb
    simpa [hc] using this

theorem emod_decAdj (s : Bool) (m : Nat) (n : Nat) (hn : n < m) :
    ((decAdj s m n) % (m : Int)).toNat = n := by
  have hbase : ((n : Int) % (m : Int)).toNat = n := by
    rw [Int.emod_eq_of_lt (by positivity) (by exact_mod_cast hn)]
    simp
  unfold decAdj toSigned
  cases s with
  | false => simpa using hbase
  | true =>
    by_cases h : 2 * n < m
    · simpa [h] using hbase
    · simp only [h, if_false, if_true, Bool.true_eq]
      rw [Int.sub_emod, Int.emod_self, sub_zero, Int.emod_emod_of_dvd _ dvd_rfl]
      simpa using hbase

theorem encodeElem_decodeElem (t : ElemType) (le : Bool) (c : List Nat)
    (hc : c.length = bytesPerElement t) (hb : ∀ b ∈ c, b < 256) :
    encodeElem t le (decodeElem t le c) = c := by
  have hn : decodeNat le c < modulus t := decodeNat_lt t le c hc hb
  have hmod : ((decodeElem t le c) % (modulus t : Int)).toNat = decodeNat le c :=
    emod_decAdj _ _ _ hn
  unfold encodeElem
  rw [hmod]
  cases le with
  | true =>
    simp only [if_true]
    unfold decodeNat
    simp only [if_true]
    rw [← hc]
    exact natToBytesLE_leVal c hb
  | false =>
    simp only [if_false, Bool.false_eq_true]
    unfold decodeNat
    simp only [if_false, Bool.false_eq_true]
    rw [show bytesPerElement t = c.reverse.length by simp [hc]]
    rw [natToBytesLE_leVal c.reverse (by simpa using hb)]
    simp

theorem encodeElem_toWidth (t : ElemType) (le : Bool) (x : Int) :
    encodeElem t le (toWidth t x) = encodeElem t le x := by
  have hm : (0 : Int) < (modulus t : Int) := by
    have := bytesPerElement_pos t
    unfold modulus
    positivity
  have hn : ((x % (modulus t : Int)).toNat) < modulus t := by
    have h1 : x % (modulus t : Int) < modulus t := Int.emod_lt_of_pos x hm
    omega
  unfold encodeElem toWidth
  rw [emod_decAdj _ _ _ hn]

theorem toWidth_eq (t : ElemType) (x : Int) (hx : representable t x) :
    toWidth t x = x := by
  have hm : (0 : Int) < (modulus t : Int) := by
    have := bytesPerElement_pos t
    unfold modulus
    positivity
  have h0 : 0 ≤ x % (modulus t : Int) := Int.emod_nonneg x (by omega)
  have h1 : x % (modulus t : Int) < modulus t := Int.emod_lt_of_pos x hm
  unfold representable at hx
  unfold toWidth decAdj toSigned
  cases hs : isSigned t with
  | false =>
    rw [hs] at hx
    rw [show inRange false (modulus t) x = (0 ≤ x ∧ x < (modulus t : Int)) from rfl] at hx
    obtain ⟨h2, h3⟩ := hx
    have hmodeq : x % (modulus t : Int) = x := Int.emod_eq_of_lt h2 h3
    simp only [if_false, Bool.false_eq_true]
    omega
  | true =>
    rw [hs] at hx
    rw [show inRange true (modulus t) x =
      (-((modulus t : Nat) : Int) ≤ 2 * x ∧ 2 * x < ((modulus t : Nat) : Int)) from rfl] at hx
    obtain ⟨h2, h3⟩ := hx
    simp only [if_true]
    by_cases hxn : 0 ≤ x
    · have hmodeq : x % (modulus t : Int) = x := Int.emod_eq_of_lt hxn (by omega)
      rw [if_pos (by omega)]
      omega
    · have hmodeq : x % (modulus t : Int) = x + modulus t := by
        have hb := Int.add_mul_emod_self_left x ((modulus t : Nat) : Int) 1
        rw [mul_one] at hb
        rw [← hb]
        exact Int.emod_eq_of_lt (by omega) (by omega)
      rw [if_neg (by omega)]
      omega

theorem decodeElem_encodeElem (t : ElemType) (le : Bool) (x : Int)
    (hx : representable t x) :
    decodeElem t le (encodeElem t le x) = x := by
  have hm : (0 : Int) < (modulus t : Int) := by
    have := bytesPerElement_pos t
    unfold modulus
    positivity
  have h0 : 0 ≤ x % (modulus t : Int) := Int.emod_nonneg x (by omega)
  have h1 : x % (modulus t : Int) < modulus t := Int.emod_lt_of_pos x hm
  have hlt : (x % (modulus t : Int)).toNat < modulus t := by omega
  have hdec : decodeNat le (encodeElem t le x) = (x % (modulus t : Int)).toNat := by
    unfold encodeElem decodeNat
    cases le with
    | true =>
      simp only [if_true]
      rw [leVal_natToBytesLE]
      exact Nat.mod_eq_of_lt hlt
    | false =>
      simp only [if_false, Bool.false_eq_true, List.reverse_reverse]
      rw [leVal_natToBytesLE]
      exact Nat.mod_eq_of_lt hlt
  unfold decodeElem
  rw [hdec]
  exact toWidth_eq t x hx

theorem map_id_of_forall {α : Type} (l : List α) (f : α → α) (h : ∀ a ∈ l, f a = a) :
    l.map f = l := by
  induction l with
  | nil => rfl
  | cons a l ih =>
    simp only [List.map_cons, h a (List.mem_cons_self _ _)]
    rw [ih (fun x hx => h x (List.mem_cons_of_mem _ hx))]

/-- Re-encoding what native iteration produced is the identity on a real
typed array (same type, same order on both sides). -/
theorem encBytes_elems (v : TypedView) (le : Bool) (hwf : WF v) :
    encBytes v.type le (elems v le) = v.bytes := by
  obtain ⟨hb, hdvd⟩ := hwf
  have hw : 0 < bytesPerElement v.type := bytesPerElement_pos v.type
  unfold encBytes elems
  rw [List.map_map]
  rw [map_id_of_forall (chunks (bytesPerElement v.type) v.bytes)
    (encodeElem v.type le ∘ decodeElem v.type le)
    (fun c hc => encodeElem_decodeElem v.type le c
      (chunks_length_mem _ hw _ hdvd c hc)
      (fun b hbc => hb b (chunks_subset _ _ c hc b hbc)))]
  exact chunks_flatten _ hw _

theorem elems_length (v : TypedView) (le : Bool)
    (hdvd : bytesPerElement v.type ∣ v.bytes.length) :
    (elems v le).length = elemCount v := by
  unfold elems elemCount
  rw [List.length_map]
  exact chunks_count _ (bytesPerElement_pos v.type) _ hdvd

theorem ofElems_count (t : ElemType) (le : Bool) (vals : List Int) :
    elemCount (ofElems t le vals) = vals.length := by
  unfold elemCount ofElems
  simp only
  rw [encBytes_length]
  exact Nat.mul_div_cancel _ (bytesPerElement_pos t)

theorem ofElems_wf (t : ElemType) (le : Bool) (vals : List Int) :
    WF (ofElems t le vals) := by
  constructor
  · exact encBytes_lt t le vals
  · simp only [ofElems]
    rw [encBytes_length]
    exact dvd_mul_left _ _

theorem decAdj_false (m n : Nat) : decAdj false m n = (n : Int) := rfl

theorem decAdj_true (m n : Nat) :
    decAdj true m n = if 2 * n < m then (n : Int) else (n : Int) - (m : Int) := rfl

theorem inRange_false (m : Nat) (x : Int) :
    inRange false m x ↔ (0 ≤ x ∧ x < (m : Int)) := Iff.rfl

theorem inRange_true (m : Nat) (x : Int) :
    inRange true m x ↔ (-(m : Int) ≤ 2 * x ∧ 2 * x < (m : Int)) := Iff.rfl

/-- Core equivalence behind the intMode integrity check in little-endian
order: the low-width re-decoding of a raw value agrees with the full
decoding exactly when the decoded value lies in the narrow range. -/
theorem decAdj_trunc_eq_iff (ss ts : Bool) (ms mt : Nat) (hdvd : mt ∣ ms)
    (hpos : 0 < mt) (U : Nat) (hU : U < ms) :
    (decAdj ts mt (U % mt) = decAdj ss ms U ↔ inRange ts mt (decAdj ss ms U)) := by
  have hUmt : U % mt < mt := Nat.mod_lt U hpos
  set e : Int := decAdj ts mt (U % mt) with he
  set v : Int := decAdj ss ms U with hv
  have he_mod : (mt : Int) ∣ (e - ((U % mt : Nat) : Int)) := by
    rw [he]
    cases ts with
    | false => rw [decAdj_false]; simp
    | true =>
      rw [decAdj_true]
      by_cases h : 2 * (U % mt) < mt
      · rw [if_pos h]; simp
      · rw [if_neg h]
        rw [show ((U % mt : Nat) : Int) - (mt : Int) - ((U % mt : Nat) : Int)
          = -(mt : Int) by ring]
        exact dvd_neg.mpr dvd_rfl
  have hv_mod : (mt : Int) ∣ (v - (U : Int)) := by
    rw [hv]
    cases ss with
    | false => rw [decAdj_false]; simp
    | true =>
      rw [decAdj_true]
      by_cases h : 2 * U < ms
      · rw [if_pos h]; simp
      · rw [if_neg h]
        rw [show ((U : Nat) : Int) - (ms : Int) - ((U : Nat) : Int) = -(ms : Int) by ring]
        exact dvd_neg.mpr (Int.natCast_dvd_natCast.mpr hdvd)
  have hU_mod : (mt : Int) ∣ ((U : Int) - ((U % mt : Nat) : Int)) := by
    have hsplit := Nat.div_add_mod U mt
    refine ⟨((U / mt : Nat) : Int), ?_⟩
    have hcast : ((mt * (U / mt) + U % mt : Nat) : Int) = ((U : Nat) : Int) := by
      rw [hsplit]
    push_cast at hcast
    omega
  have hd : (mt : Int) ∣ (e - v) := by
    have hcomb : e - v = (e - ((U % mt : Nat) : Int)) - (v - (U : Int)) -
        ((U : Int) - ((U % mt : Nat) : Int)) := by ring
    rw [hcomb]
    exact dvd_sub (dvd_sub he_mod hv_mod) hU_mod
  have hre : inRange ts mt e := by
    rw [he]
    cases ts with
    | false =>
      rw [decAdj_false, inRange_false]
      constructor
      · omega
      · exact_mod_cast hUmt
    | true =>
      rw [decAdj_true, inRange_true]
      by_cases h : 2 * (U % mt) < mt
      · rw [if_pos h]
        constructor
        · omega
        · exact_mod_cast h
      · rw [if_neg h]
        constructor <;> push_cast <;> omega
  constructor
  · intro h
    rw [← h]
    exact hre
  · intro hr
    have hbound : -(mt : Int) < e - v ∧ e - v < (mt : Int) := by
      cases ts with
      | false =>
        rw [inRange_false] at hre hr
        omega
      | true =>
        rw [inRange_true] at hre hr
        omega
    obtain ⟨k, hk⟩ := hd
    have hk1 : k < 1 := by
      by_contra hge
      push_neg at hge
      have : (mt : Int) * 1 ≤ (mt : Int) * k := by
        apply mul_le_mul_of_nonneg_left hge
        positivity
      omega
    have hk2 : -1 < k := by
      by_contra hle
      push_neg at hle
      have : (mt : Int) * k ≤ (mt : Int) * (-1) := by
        apply mul_le_mul_of_nonneg_left hle
        positivity
      omega
    have hk0 : k = 0 := by omega
    rw [hk0, mul_zero] at hk
    omega

/-- Exceptions the modelled operations raise: `RangeError` from an
out-of-bounds `DataView` access, `IntegrityError` from a lossy intMode
narrowing, and the concat type-mismatch `TypeError`, which carries the
two constructor names its message interpolates. -/
inductive JsError where
  | rangeError
  | integrityError
  | typeMismatch (base other : ElemType)
deriving DecidableEq, Repr

/-- Sequential effectful map with early exit, the shape of every
`forEach`-style loop in the source that can throw. -/
def mapME {α β : Type} (f : α → Except JsError β) : List α → Except JsError (List β)
  | [] => .ok []
  | a :: l =>
    match f a with
    | .error e => .error e
    | .ok b =>
      match mapME f l with
      | .error e => .error e
      | .ok bs => .ok (b :: bs)

theorem mapME_ok {α β : Type} (f : α → Except JsError β) (g : α → β) (l : List α)
    (h : ∀ a ∈ l, f a = .ok (g a)) : mapME f l = .ok (l.map g) := by
  induction l with
  | nil => rfl
  | cons a l ih =>
    simp only [mapME, h a (List.mem_cons_self _ _), List.map_cons]
    rw [ih (fun x hx => h x (List.mem_cons_of_mem _ hx))]

theorem mapME_dichotomy {α β : Type} (f : α → Except JsError β) (g : α → β)
    (P : α → Prop) (l : List α)
    (h : ∀ a ∈ l, (P a → f a = .ok (g a)) ∧ (¬ P a → f a = .error .integrityError)) :
    ((∀ a ∈ l, P a) → mapME f l = .ok (l.map g)) ∧
      ((¬ ∀ a ∈ l, P a) → mapME f l = .error .integrityError) := by
  induction l with
  | nil =>
    constructor
    · intro _; rfl
    · intro hn; exact absurd (by simp) hn
  | cons a l ih =>
    obtain ⟨iha, ihb⟩ := ih (fun x hx => h x (List.mem_cons_of_mem _ hx))
    by_cases hpa : P a
    · have hfa : f a = .ok (g a) := (h a (List.mem_cons_self _ _)).1 hpa
      constructor
      · intro hall
        simp only [mapME, hfa, List.map_cons]
        rw [iha (fun x hx => hall x (List.mem_cons_of_mem _ hx))]
      · intro hnall
        have hnl : ¬ ∀ x ∈ l, P x := by
          intro hl
          exact hnall (by
            intro x hx
            rcases List.mem_cons.mp hx with hx1 | hx2
            · exact hx1 ▸ hpa
            · exact hl x hx2)
        simp only [mapME, hfa]
        rw [ihb hnl]
    · have hfa : f a = .error .integrityError := (h a (List.mem_cons_self _ _)).2 hpa
      constructor
      · intro hall
        exact absurd (hall a (List.mem_cons_self _ _)) hpa
      · intro _
        simp only [mapME, hfa]

/-- Modifier accepted by `convert` for the `intMode` parameter:
`false`, `true` or the string `"force"`. -/
inductive IntMode where
  | off
  | on
  | force
deriving DecidableEq, Repr

/-- Modifier accepted by `convert` for the `trim` parameter:
`false`, `true` or the string `"purge"`. -/
inductive TrimMode where
  | off
  | on
  | purge
deriving DecidableEq, Repr

namespace Mutar

/-- `Mutar.trim(obj, purge, littleEndian)`: with `purge` it keeps only the
elements whose value is nonzero (an integer element's native value is zero
exactly when all of its bytes are, so the `filter((b) => b !== 0)` test is
modelled byte-wise); otherwise it scans whole elements from the padding
end — the start for big endian, the end for little endian — and drops the
zero elements found there (`start`/`end` loops plus `slice(start, end+1)`). -/
def trim (v : TypedView) (purge : Bool) (le : Bool) : TypedView :=
  let w := bytesPerElement v.type
  let isZero : List Nat → Bool := fun c => c.all (fun b => b == 0)
  if purge then ⟨v.type, ((chunks w v.bytes).filter (fun c => ! isZero c)).flatten⟩
  else if le then ⟨v.type, (((chunks w v.bytes).reverse.dropWhile isZero).reverse).flatten⟩
  else ⟨v.type, ((chunks w v.bytes).dropWhile isZero).flatten⟩

/-- Raw-reinterpretation branch of `Mutar.convert` (`intMode` falsy): if the
byte length divides evenly the same bytes are viewed as the target type
(trimming afterwards when requested); otherwise `missing` zero bytes pad
the start for big endian and the end for little endian. -/
def convertRaw (v : TypedView) (tgt : ElemType) (trimMode : TrimMode) (le : Bool) :
    TypedView :=
  let w := bytesPerElement tgt
  let byteDiff := v.bytes.length % w
  if byteDiff = 0 then
    let arr : TypedView := ⟨tgt, v.bytes⟩
    match trimMode with
    | .off => arr
    | .on => trim arr false le
    | .purge => trim arr true le
  else
    let missing := w - byteDiff
    ⟨tgt, if le then v.bytes ++ List.replicate missing 0
      else List.replicate missing 0 ++ v.bytes⟩

/-- One iteration of the intMode loop of `Mutar.convert`: decode the current
element, re-decode its leading bytes with the target getter when the
integrity test is active, and encode the value into the target slot. -/
def convertIntElem (src tgt : ElemType) (testIntegrity : Bool) (le : Bool)
    (chunk : List Nat) : Except JsError (List Nat) :=
  let val := decodeElem src le chunk
  if testIntegrity then
    if decodeElem tgt le (chunk.take (bytesPerElement tgt)) = val then
      .ok (encodeElem tgt le val)
    else .error .integrityError
  else .ok (encodeElem tgt le val)

/-- Value-preserving branch of `Mutar.convert` (`intMode` truthy): the
integrity test runs when `intMode !== "force"` and the byte difference
`max(cur - new, 0)` is nonzero. -/
def convertInt (v : TypedView) (tgt : ElemType) (force : Bool) (le : Bool) :
    Except JsError TypedView :=
  let testIntegrity := !force && decide (bytesPerElement tgt < bytesPerElement v.type)
  match mapME (convertIntElem v.type tgt testIntegrity le)
      (chunks (bytesPerElement v.type) v.bytes) with
  | .error e => .error e
  | .ok slots => .ok ⟨tgt, slots.flatten⟩

/-- `Mutar.convert(obj, type, intMode, trim, littleEndian)`. -/
def convert (v : TypedView) (tgt : ElemType) (intMode : IntMode)
    (trimMode : TrimMode) (le : Bool) : Except JsError TypedView :=
  match intMode with
  | .off => .ok (convertRaw v tgt trimMode le)
  | .on => convertInt v tgt false le
  | .force => convertInt v tgt true le

/-- `Mutar.concat(obj, ...args)` with its string modifiers already parsed
out of the variadic list: `force`, the trim modifier, and the
`intMode`/`intForce` modifier.  `force` is promoted to true whenever an
int modifier is present.  Operands of a foreign type are converted with
`Mutar.convert(nextObj, type, intMode, trim)`, whose byte order defaults
to the host order, and every collected element value is re-encoded by
`ArrayTypes[type].from(precursor)` in host order.  `concatStep` is the
body of the `args.forEach` loop for one operand. -/
def concatStep (obj : TypedView) (force2 : Bool) (trimMode : TrimMode)
    (intMode : IntMode) (sysLE : Bool) (a : TypedView) :
    Except JsError (List Int) :=
  if a.type = obj.type then Except.ok (elems a sysLE)
  else if force2 then
    match convert a obj.type intMode trimMode sysLE with
    | .ok c => .ok (elems c sysLE)
    | .error e => .error e
  else .error (JsError.typeMismatch obj.type a.type)

def concat (obj : TypedView) (args : List TypedView) (force : Bool)
    (trimMode : TrimMode) (intMode : IntMode) (sysLE : Bool) :
    Except JsError TypedView :=
  let force2 := force || (match intMode with | .off => false | _ => true)
  if args.isEmpty then .ok obj
  else
    match mapME (concatStep obj force2 trimMode intMode sysLE) args with
    | .error e => .error e
    | .ok pieces => .ok (ofElems obj.type sysLE (elems obj sysLE ++ pieces.flatten))

/-- Start-index normalization of `Mutar.splice`: non-integers fall back to
the length, negative values count from the end and clamp at zero, and the
result is capped by the length. -/
def spliceStart (len : Nat) (start : Option Int) : Nat :=
  let s1 : Int := match start with
    | none => (len : Int)
    | some i => if i < 0 then max ((len : Int) + i) 0 else i
  (min s1 (len : Int)).toNat

/-- Delete-count normalization of `Mutar.splice`: zero once `start` sits at
the end, everything up to the end for a non-integer count or one reaching
past the end, and clamped at zero otherwise. -/
def spliceDelete (len s : Nat) (deleteCount : Option Int) : Nat :=
  if s = len then 0
  else match deleteCount with
    | none => len - s
    | some d => if ((len : Int) - (s : Int)) ≤ d then len - s else d.toNat

/-- `Mutar.splice(obj, start, deleteCount, ...items)`.  The optional
trailing boolean of the variadic list is modelled as `leOpt` (it has
already been stripped from `items`); when absent the host order is used.
The head, the removed segment and the tail are cut out, inserted values
are encoded element-wise with the resolved order, and the pieces are
rejoined through `Mutar.concat`. -/
def splice (v : TypedView) (start deleteCount : Option Int) (items : List Int)
    (leOpt : Option Bool) (sysLE : Bool) : Except JsError (TypedView × TypedView) :=
  let w := bytesPerElement v.type
  let len := elemCount v
  let s := spliceStart len start
  let del := spliceDelete len s deleteCount
  let le := leOpt.getD sysLE
  let e := s + del
  let startArr : TypedView := ⟨v.type, v.bytes.take (s * w)⟩
  let spliced : TypedView := ⟨v.type, (v.bytes.drop (s * w)).take (del * w)⟩
  let endArr : TypedView := ⟨v.type, v.bytes.drop (e * w)⟩
  let res :=
    if items.isEmpty then concat startArr [endArr] false .off .off sysLE
    else concat startArr [ofElems v.type le items, endArr] false .off .off sysLE
  match res with
  | .error err => .error err
  | .ok r => .ok (r, spliced)

/-- `Mutar.push(obj, ...args)`: a splice at the current length, returning
the new array and its length. -/
def push (v : TypedView) (items : List Int) (leOpt : Option Bool) (sysLE : Bool) :
    Except JsError (TypedView × Nat) :=
  match splice v (some (elemCount v : Int)) (some 0) items leOpt sysLE with
  | .error e => .error e
  | .ok (r, _) => .ok (r, elemCount r)

/-- Guarded `DataView` get: `ToIndex` rejects a negative offset and the read
must fit inside the buffer, else a `RangeError` is thrown (`none`). -/
def dvGet (t : ElemType) (le : Bool) (bs : List Nat) (off : Int) : Option Int :=
  if 0 ≤ off ∧ off + (bytesPerElement t : Int) ≤ (bs.length : Int)
  then some (decodeElem t le ((bs.drop off.toNat).take (bytesPerElement t)))
  else none

/-- Final read of `Mutar.at`: `view[get](index * BYTES_PER_ELEMENT, le)`,
throwing the `DataView` RangeError when out of bounds. -/
def atRead (v : TypedView) (i : Nat) (le : Bool) : Except JsError (Option Int) :=
  match dvGet v.type le v.bytes ((i : Int) * (bytesPerElement v.type : Int)) with
  | some x => .ok (some x)
  | none => .error .rangeError

/-- `Mutar.at(obj, index, littleEndian)`.  `index` is `none` when its
`Number` conversion is `NaN`, in which case the code resets it to zero and
skips every bounds check before reading. -/
def atIndex (v : TypedView) (index : Option Int) (le : Bool) :
    Except JsError (Option Int) :=
  match index with
  | none => atRead v 0 le
  | some i =>
    if i < 0 then
      if (elemCount v : Int) + i < 0 then .ok none
      else atRead v ((elemCount v : Int) + i).toNat le
    else if (elemCount v : Int) ≤ i then .ok none
    else atRead v i.toNat le

/-- `Mutar.pop(obj, littleEndian)`: read the value at byte offset
`(length-1) * BYTES_PER_ELEMENT` — a RangeError on an empty array — and
return `slice(0, -1)` together with it. -/
def pop (v : TypedView) (le : Bool) : Except JsError (TypedView × Int) :=
  match dvGet v.type le v.bytes
      (((elemCount v : Int) - 1) * (bytesPerElement v.type : Int)) with
  | none => .error .rangeError
  | some x =>
    .ok (⟨v.type, v.bytes.take ((elemCount v - 1) * bytesPerElement v.type)⟩, x)

/-- `Mutar.shift(obj, littleEndian)`: read the value at byte offset 0 — a
RangeError on an empty array — and return `slice(1)` together with it. -/
def shift (v : TypedView) (le : Bool) : Except JsError (TypedView × Int) :=
  match dvGet v.type le v.bytes 0 with
  | none => .error .rangeError
  | some x => .ok (⟨v.type, v.bytes.drop (bytesPerElement v.type)⟩, x)

/-- `Mutar.flipEndianness(obj)`: reverse each element's byte group in
place; single-byte element types are left untouched. -/
def flipEndianness (v : TypedView) : TypedView :=
  if 1 < bytesPerElement v.type then
    ⟨v.type, ((chunks (bytesPerElement v.type) v.bytes).map List.reverse).flatten⟩
  else v

end Mutar

/-- Stated normalization of the spec for the splice start index:
"Non-integer `start` → defaults to current length"; "Negative `start` →
`max(length + start, 0)`; then clamped to `[0, length]`". -/
def specSpliceStart (len : Nat) (start : Option Int) : Nat :=
  match start with
  | none => len
  | some i => if i < 0 then min ((len : Int) + i).toNat len else min i.toNat len

/-- Stated normalization of the spec for the splice delete count:
"non-integer or ≥ remaining elements from `start` → deletes through end;
otherwise clamped to `max(deleteCount, 0)`". -/
def specSpliceDelete (len s : Nat) (deleteCount : Option Int) : Nat :=
  match deleteCount with
  | none => len - s
  | some d => if ((len : Int) - (s : Int)) ≤ d then len - s else d.toNat

theorem spliceStart_le (len : Nat) (start : Option Int) :
    Mutar.spliceStart len start ≤ len := by
  unfold Mutar.spliceStart
  cases start with
  | none =>
    show (min ((len : Int)) ((len : Int))).toNat ≤ len
    omega
  | some i =>
    show (min (if i < 0 then max ((len : Int) + i) 0 else i) ((len : Int))).toNat ≤ len
    split_ifs <;> omega

theorem spliceStart_eq_spec (len : Nat) (start : Option Int) :
    Mutar.spliceStart len start = specSpliceStart len start := by
  unfold Mutar.spliceStart specSpliceStart
  cases start with
  | none =>
    show (min ((len : Int)) ((len : Int))).toNat = len
    omega
  | some i =>
    show (min (if i < 0 then max ((len : Int) + i) 0 else i) ((len : Int))).toNat =
      if i < 0 then min ((len : Int) + i).toNat len else min i.toNat len
    split_ifs <;> omega

theorem spliceDelete_le (len s : Nat) (d : Option Int) :
    Mutar.spliceDelete len s d ≤ len - s := by
  unfold Mutar.spliceDelete
  split_ifs with h
  · omega
  · cases d with
    | none => exact le_rfl
    | some i =>
      show (if ((len : Int) - (s : Int)) ≤ i then len - s else i.toNat) ≤ len - s
      split_ifs with h2
      · exact le_rfl
      · omega

theorem spliceDelete_eq_spec (len s : Nat) (d : Option Int) (hs : s ≤ len) :
    Mutar.spliceDelete len s d = specSpliceDelete len s d := by
  unfold Mutar.spliceDelete specSpliceDelete
  split_ifs with h
  · cases d with
    | none =>
      show (0 : Nat) = len - s
      omega
    | some i =>
      show (0 : Nat) = if ((len : Int) - (s : Int)) ≤ i then len - s else i.toNat
      split_ifs <;> omega
  · rfl

theorem map_eq_of_forall {α β : Type} (l : List α) (f g : α → β)
    (h : ∀ a ∈ l, f a = g a) : l.map f = l.map g := by
  induction l with
  | nil => rfl
  | cons a l ih =>
    simp only [List.map_cons, h a (List.mem_cons_self _ _)]
    rw [ih (fun x hx => h x (List.mem_cons_of_mem _ hx))]

theorem encBytes_flatten (t : ElemType) (le : Bool) (L : List (List Int)) :
    encBytes t le L.flatten = (L.map (encBytes t le)).flatten := by
  induction L with
  | nil => rfl
  | cons c L ih =>
    rw [show (c :: L).flatten = c ++ L.flatten from rfl, encBytes_append, ih]
    rfl

/-- `Mutar.concat` on operands that all share the base's type: the
precursor decode/re-encode round-trips and the result is plain byte
concatenation. -/
theorem concat_sameType (obj : TypedView) (args : List TypedView) (force : Bool)
    (trimMode : TrimMode) (intMode : IntMode) (sysLE : Bool)
    (hne : args ≠ []) (hobj : WF obj)
    (hargs : ∀ a ∈ args, a.type = obj.type ∧ WF a) :
    Mutar.concat obj args force trimMode intMode sysLE =
      .ok ⟨obj.type, obj.bytes ++ (args.map TypedView.bytes).flatten⟩ := by
  unfold Mutar.concat
  rw [if_neg (by simpa using hne)]
  rw [mapME_ok _ (fun a => elems a sysLE) args
    (fun a ha => by unfold Mutar.concatStep; rw [if_pos (hargs a ha).1])]
  simp only [ofElems]
  congr 1
  rw [encBytes_append, encBytes_elems obj sysLE hobj, encBytes_flatten, List.map_map]
  congr 1
  rw [map_eq_of_forall args _ TypedView.bytes (fun a ha => by
    have ht := (hargs a ha).1
    have hwa := (hargs a ha).2
    simp only [Function.comp_apply]
    rw [← ht]
    exact encBytes_elems a sysLE hwa)]

/-- Concrete evaluation of `Mutar.splice` on a well-formed view: the result
is head plus encoded insertions plus tail, and the removed segment is the
deleted byte range. -/
theorem splice_eval (v : TypedView) (start deleteCount : Option Int)
    (items : List Int) (leOpt : Option Bool) (sysLE : Bool) (hwf : WF v) :
    Mutar.splice v start deleteCount items leOpt sysLE =
      .ok (⟨v.type, v.bytes.take
              (Mutar.spliceStart (elemCount v) start * bytesPerElement v.type)
            ++ encBytes v.type (leOpt.getD sysLE) items
            ++ v.bytes.drop ((Mutar.spliceStart (elemCount v) start +
                Mutar.spliceDelete (elemCount v)
                  (Mutar.spliceStart (elemCount v) start) deleteCount) *
                bytesPerElement v.type)⟩,
          ⟨v.type, (v.bytes.drop
              (Mutar.spliceStart (elemCount v) start * bytesPerElement v.type)).take
              (Mutar.spliceDelete (elemCount v)
                (Mutar.spliceStart (elemCount v) start) deleteCount *
                bytesPerElement v.type)⟩) := by
  obtain ⟨hb, hdvd⟩ := hwf
  simp only [Mutar.splice]
  set w := bytesPerElement v.type with hwdef
  set len := elemCount v with hlendef
  set s := Mutar.spliceStart len start with hsdef
  set del := Mutar.spliceDelete len s deleteCount with hdeldef
  have hstartwf : WF ⟨v.type, v.bytes.take (s * w)⟩ := by
    constructor
    · exact fun b hbx => hb b (List.take_subset _ _ hbx)
    · show w ∣ (v.bytes.take (s * w)).length
      rw [List.length_take]
      rcases Nat.le_total (s * w) v.bytes.length with h | h
      · rw [min_eq_left h]; exact Dvd.intro s (mul_comm w s)
      · rw [min_eq_right h]; exact hdvd
  have hendwf : WF ⟨v.type, v.bytes.drop ((s + del) * w)⟩ := by
    constructor
    · exact fun b hbx => hb b (List.drop_subset _ _ hbx)
    · show w ∣ (v.bytes.drop ((s + del) * w)).length
      rw [List.length_drop]
      exact Nat.dvd_sub' hdvd (Dvd.intro _ (mul_comm _ _))
  by_cases hit : items.isEmpty = true
  · have hitems : items = [] := List.isEmpty_iff.mp hit
    subst hitems
    rw [if_pos hit]
    rw [concat_sameType _ _ _ _ _ _ (by simp) hstartwf
      (by intro a ha; simp only [List.mem_singleton] at ha; subst ha; exact ⟨rfl, hendwf⟩)]
    simp [encBytes]
  · rw [if_neg hit]
    rw [concat_sameType _ _ _ _ _ _ (by simp) hstartwf
      (by
        intro a ha
        simp only [List.mem_cons, List.mem_singleton, List.not_mem_nil] at ha
        rcases ha with ha | ha | ha
        · subst ha; exact ⟨rfl, ofElems_wf _ _ _⟩
        · subst ha; exact ⟨rfl, hendwf⟩
        · exact absurd ha (by simp))]
    simp only [List.map_cons, List.map_nil, List.flatten_cons, List.flatten_nil,
      List.append_nil, ofElems]
    rw [List.append_assoc]

/-- C2: for every typed view, start and deleteCount argument and insertion
list (trailing boolean override already stripped into `leOpt`), splice
succeeds, its first component has `length(v) - del' + len(items)` elements
and its removed segment is a view of the same element type with exactly
`del'` elements, where `del'` follows the stated normalization
(`specSpliceStart` / `specSpliceDelete`). -/
theorem splice_length_invariant (v : TypedView) (start deleteCount : Option Int)
    (items : List Int) (leOpt : Option Bool) (sysLE : Bool) (hwf : WF v) :
    ∃ r rem, Mutar.splice v start deleteCount items leOpt sysLE = .ok (r, rem) ∧
      rem.type = v.type ∧
      elemCount r = elemCount v -
        specSpliceDelete (elemCount v) (specSpliceStart (elemCount v) start)
          deleteCount + items.length ∧
      elemCount rem =
        specSpliceDelete (elemCount v) (specSpliceStart (elemCount v) start)
          deleteCount := by
  have hdvd := hwf.2
  have hw : 0 < bytesPerElement v.type := bytesPerElement_pos v.type
  have hblen : v.bytes.length = elemCount v * bytesPerElement v.type := by
    unfold elemCount
    rw [Nat.div_mul_cancel hdvd]
  set w := bytesPerElement v.type with hwdef
  set len := elemCount v with hlendef
  set s := Mutar.spliceStart len start with hsdef
  set del := Mutar.spliceDelete len s deleteCount with hdeldef
  have hsle : s ≤ len := spliceStart_le len start
  have hdle : del ≤ len - s := spliceDelete_le len s deleteCount
  have hspec : len - del + items.length =
      len - specSpliceDelete len (specSpliceStart len start) deleteCount +
        items.length := by
    rw [← spliceStart_eq_spec, ← hsdef, ← spliceDelete_eq_spec len s deleteCount hsle,
      ← hdeldef]
  have hspec2 : del =
      specSpliceDelete len (specSpliceStart len start) deleteCount := by
    rw [← spliceStart_eq_spec, ← hsdef, ← spliceDelete_eq_spec len s deleteCount hsle,
      ← hdeldef]
  refine ⟨_, _, splice_eval v start deleteCount items leOpt sysLE hwf, rfl, ?_, ?_⟩
  · rw [← hspec]
    show (v.bytes.take (s * w) ++ encBytes v.type (leOpt.getD sysLE) items ++
        v.bytes.drop ((s + del) * w)).length / w = len - del + items.length
    have h1 : (s + del) * w ≤ len * w := Nat.mul_le_mul_right w (by omega)
    have h2 : s * w ≤ len * w := Nat.mul_le_mul_right w hsle
    have htl : (v.bytes.take (s * w)).length = s * w := by
      rw [List.length_take, hblen]
      omega
    have hel : (encBytes v.type (leOpt.getD sysLE) items).length = items.length * w :=
      encBytes_length _ _ _
    have hdl : (v.bytes.drop ((s + del) * w)).length = (len - (s + del)) * w := by
      rw [List.length_drop, hblen, ← Nat.sub_mul]
    rw [List.length_append, List.length_append, htl, hel, hdl]
    have hsum : s * w + items.length * w + (len - (s + del)) * w =
        (len - del + items.length) * w := by
      have harith : s + items.length + (len - (s + del)) =
          len - del + items.length := by omega
      calc s * w + items.length * w + (len - (s + del)) * w
          = (s + items.length + (len - (s + del))) * w := by ring
        _ = (len - del + items.length) * w := by rw [harith]
    rw [hsum, Nat.mul_div_cancel _ hw]
  · rw [← hspec2]
    show ((v.bytes.drop (s * w)).take (del * w)).length / w = del
    have hdbl : (v.bytes.drop (s * w)).length = (len - s) * w := by
      rw [List.length_drop, hblen, ← Nat.sub_mul]
    have hmin : del * w ≤ (len - s) * w := Nat.mul_le_mul_right w hdle
    rw [List.length_take, hdbl, min_eq_left hmin, Nat.mul_div_cancel _ hw]

/-- C2 witness: splice on a concrete two-element view with negative start,
oversized delete count and two insertions. -/
theorem splice_length_invariant_witness :
    ∃ r rem, Mutar.splice ⟨.uint16, [1, 0, 2, 0]⟩ (some (-3)) (some 5) [7, 8]
        none true = .ok (r, rem) ∧
      rem.type = ElemType.uint16 ∧
      elemCount r = elemCount (⟨.uint16, [1, 0, 2, 0]⟩ : TypedView) -
        specSpliceDelete (elemCount (⟨.uint16, [1, 0, 2, 0]⟩ : TypedView))
          (specSpliceStart (elemCount (⟨.uint16, [1, 0, 2, 0]⟩ : TypedView))
            (some (-3))) (some 5) + [7, 8].length ∧
      elemCount rem =
        specSpliceDelete (elemCount (⟨.uint16, [1, 0, 2, 0]⟩ : TypedView))
          (specSpliceStart (elemCount (⟨.uint16, [1, 0, 2, 0]⟩ : TypedView))
            (some (-3))) (some 5) :=
  splice_length_invariant ⟨.uint16, [1, 0, 2, 0]⟩ (some (-3)) (some 5) [7, 8]
    none true (by decide)

/-- C8: pushing a representable value and popping it back (same declared
byte order for both calls) returns the original view byte-for-byte — hence
with the same length and element values — and the popped value equals the
pushed one. -/
theorem push_pop_inverse (v : TypedView) (x : Int) (le : Bool) (sysLE : Bool)
    (hwf : WF v) (hx : representable v.type x) :
    ∃ v1 n, Mutar.push v [x] (some le) sysLE = .ok (v1, n) ∧
      Mutar.pop v1 le = .ok (v, x) := by
  have hdvd := hwf.2
  have hw : 0 < bytesPerElement v.type := bytesPerElement_pos v.type
  have hblen : v.bytes.length = elemCount v * bytesPerElement v.type := by
    unfold elemCount
    rw [Nat.div_mul_cancel hdvd]
  set w := bytesPerElement v.type with hwdef
  set len := elemCount v with hlendef
  have hs : Mutar.spliceStart len (some (len : Int)) = len := by
    unfold Mutar.spliceStart
    show (min (if (len : Int) < 0 then max ((len : Int) + (len : Int)) 0 else (len : Int))
      ((len : Int))).toNat = len
    split_ifs <;> omega
  have hdel : Mutar.spliceDelete len len (some 0) = 0 := by
    unfold Mutar.spliceDelete
    rw [if_pos rfl]
  have heval := splice_eval v (some (len : Int)) (some 0) [x] (some le) sysLE hwf
  rw [← hlendef, hs, hdel] at heval
  have htake : v.bytes.take (len * w) = v.bytes := by
    apply List.take_of_length_le
    omega
  have hdrop : v.bytes.drop ((len + 0) * w) = [] := by
    apply List.drop_eq_nil_of_le
    rw [Nat.add_zero]
    omega
  have henc : encBytes v.type ((some le).getD sysLE) [x] = encodeElem v.type le x := by
    simp [encBytes]
  rw [htake, hdrop, henc, List.append_nil] at heval
  set v1 : TypedView := ⟨v.type, v.bytes ++ encodeElem v.type le x⟩ with hv1def
  have hv1len : v1.bytes.length = len * w + w := by
    rw [hv1def]
    simp only [List.length_append, length_encodeElem]
    omega
  have hv1count : elemCount v1 = len + 1 := by
    unfold elemCount
    rw [show bytesPerElement v1.type = w from rfl, hv1len]
    rw [show len * w + w = (len + 1) * w by ring]
    exact Nat.mul_div_cancel _ hw
  refine ⟨v1, elemCount v1, ?_, ?_⟩
  · unfold Mutar.push
    rw [← hlendef, heval]
  · unfold Mutar.pop
    rw [hv1count]
    have hoffset : (((len : Int) + 1 - 1) * (w : Int)) = ((len * w : Nat) : Int) := by
      push_cast
      ring
    unfold Mutar.dvGet
    rw [show ((((len + 1 : Nat) : Int) - 1) * ((bytesPerElement v1.type : Nat) : Int))
      = ((len * w : Nat) : Int) by push_cast [show bytesPerElement v1.type = w from rfl]; ring]
    rw [if_pos (by
      constructor
      · positivity
      · rw [show bytesPerElement v1.type = w from rfl, hv1len]
        push_cast
        omega)]
    have hdrop2 : v1.bytes.drop ((len * w : Nat) : Int).toNat = encodeElem v.type le x := by
      rw [hv1def]
      simp only [Int.toNat_natCast]
      rw [show len * w = v.bytes.length from hblen.symm]
      exact List.drop_left _ _
    rw [hdrop2]
    have htk : (encodeElem v.type le x).take (bytesPerElement v1.type) =
        encodeElem v.type le x := by
      apply List.take_of_length_le
      rw [length_encodeElem]
    rw [show v1.type = v.type from rfl] at htk ⊢
    rw [htk, decodeElem_encodeElem v.type le x hx]
    have hback : v1.bytes.take ((len + 1 - 1) * w) = v.bytes := by
      rw [hv1def]
      simp only [Nat.add_sub_cancel]
      rw [show len * w = v.bytes.length from hblen.symm]
      exact List.take_left _ _
    rw [show bytesPerElement v1.type = w from rfl, hback]

/-- C8 witness: pushing and popping the value 40000 on a one-element Uint16
view in little-endian order. -/
theorem push_pop_inverse_witness :
    ∃ v1 n, Mutar.push ⟨.uint16, [5, 1]⟩ [40000] (some true) true = .ok (v1, n) ∧
      Mutar.pop v1 true = .ok (⟨.uint16, [5, 1]⟩, 40000) :=
  push_pop_inverse ⟨.uint16, [5, 1]⟩ 40000 true true (by decide) (by decide)

theorem atRead_zero (v : TypedView) (le : Bool)
    (hne : 0 < elemCount v) :
    Mutar.atRead v 0 le =
      .ok (some (decodeElem v.type le (v.bytes.take (bytesPerElement v.type)))) := by
  have hw : 0 < bytesPerElement v.type := bytesPerElement_pos v.type
  have hwle : bytesPerElement v.type ≤ v.bytes.length := by
    unfold elemCount at hne
    by_contra hlt
    push_neg at hlt
    rw [Nat.div_eq_of_lt hlt] at hne
    exact absurd hne (lt_irrefl 0)
  have hread : Mutar.dvGet v.type le v.bytes
      (((0 : Nat) : Int) * ((bytesPerElement v.type : Nat) : Int)) =
      some (decodeElem v.type le (v.bytes.take (bytesPerElement v.type))) := by
    unfold Mutar.dvGet
    rw [if_pos (by
      constructor
      · simp
      · simp only [Nat.cast_zero, zero_mul, zero_add]
        exact_mod_cast hwle)]
    have hoff : ((((0 : Nat) : Int)) * ((bytesPerElement v.type : Nat) : Int)).toNat = 0 := by
      simp
    rw [hoff, List.drop_zero]
  unfold Mutar.atRead
  rw [hread]

/-- C9: on a non-empty view, `at` with a NaN index does not return the
undefined sentinel: it reads index 0 and yields the first element decoded
in the requested byte order, exactly like `at` with index 0. -/
theorem at_nan_index_first (v : TypedView) (le : Bool) (hne : 0 < elemCount v) :
    Mutar.atIndex v none le =
      .ok (some (decodeElem v.type le (v.bytes.take (bytesPerElement v.type)))) ∧
    Mutar.atIndex v (some 0) le =
      .ok (some (decodeElem v.type le (v.bytes.take (bytesPerElement v.type)))) := by
  constructor
  · show Mutar.atRead v 0 le = _
    exact atRead_zero v le hne
  · show (if (0 : Int) < 0 then
        (if ((elemCount v : Nat) : Int) + 0 < 0 then
          (Except.ok none : Except JsError (Option Int))
         else Mutar.atRead v (((elemCount v : Nat) : Int) + 0).toNat le)
      else if ((elemCount v : Nat) : Int) ≤ (0 : Int) then Except.ok none
      else Mutar.atRead v ((0 : Int)).toNat le) = _
    rw [if_neg (by omega), if_neg (by exact_mod_cast Nat.not_le.mpr hne)]
    exact atRead_zero v le hne

/-- C9 witness: NaN-index access on a two-element Uint16 view read in big
endian. -/
theorem at_nan_index_first_witness :
    Mutar.atIndex ⟨.uint16, [1, 44, 0, 7]⟩ none false =
      .ok (some (decodeElem .uint16 false ([1, 44, 0, 7].take (bytesPerElement .uint16)))) ∧
    Mutar.atIndex ⟨.uint16, [1, 44, 0, 7]⟩ (some 0) false =
      .ok (some (decodeElem .uint16 false ([1, 44, 0, 7].take (bytesPerElement .uint16)))) :=
  at_nan_index_first ⟨.uint16, [1, 44, 0, 7]⟩ false (by decide)

/-- C10: on a view of length zero, pop and shift do not return an
undefined result: the pop offset `(length-1)*width` is negative and the
shift read does not fit in the empty buffer, so both `DataView` reads
throw a RangeError before any new array is produced. -/
theorem pop_shift_empty_rangeError (v : TypedView) (le : Bool)
    (hz : elemCount v = 0) :
    Mutar.pop v le = .error .rangeError ∧
      Mutar.shift v le = .error .rangeError := by
  have hw : 0 < bytesPerElement v.type := bytesPerElement_pos v.type
  have hlen : v.bytes.length < bytesPerElement v.type := by
    unfold elemCount at hz
    by_contra hge
    push_neg at hge
    have := Nat.div_pos hge hw
    omega
  constructor
  · unfold Mutar.pop
    rw [hz]
    have hneg : Mutar.dvGet v.type le v.bytes
        ((((0 : Nat) : Int) - 1) * ((bytesPerElement v.type : Nat) : Int)) = none := by
      unfold Mutar.dvGet
      rw [if_neg (by
        intro hcon
        have h1 := hcon.1
        have hwcast : (0 : Int) < ((bytesPerElement v.type : Nat) : Int) := by
          exact_mod_cast hw
        nlinarith)]
    rw [hneg]
  · unfold Mutar.shift
    have hnone : Mutar.dvGet v.type le v.bytes 0 = none := by
      unfold Mutar.dvGet
      rw [if_neg (by
        intro hcon
        have h2 := hcon.2
        rw [zero_add] at h2
        have : (bytesPerElement v.type : Int) ≤ (v.bytes.length : Int) := h2
        have hc : bytesPerElement v.type ≤ v.bytes.length := by exact_mod_cast this
        omega)]
    rw [hnone]

/-- C10 witness: pop and shift on an empty Uint32 view. -/
theorem pop_shift_empty_rangeError_witness :
    Mutar.pop ⟨.uint32, []⟩ true = .error .rangeError ∧
      Mutar.shift ⟨.uint32, []⟩ true = .error .rangeError :=
  pop_shift_empty_rangeError ⟨.uint32, []⟩ true (by decide)

/-- C7: flipping the endianness twice restores the original bytes, for
every element width (single-byte types are untouched by construction). -/
theorem flipEndianness_involutive (v : TypedView)
    (hdvd : bytesPerElement v.type ∣ v.bytes.length) :
    Mutar.flipEndianness (Mutar.flipEndianness v) = v := by
  have hw : 0 < bytesPerElement v.type := bytesPerElement_pos v.type
  by_cases h : 1 < bytesPerElement v.type
  · have huni : ∀ c ∈ (chunks (bytesPerElement v.type) v.bytes).map List.reverse,
        c.length = bytesPerElement v.type := by
      intro c hc
      simp only [List.mem_map] at hc
      obtain ⟨d, hd, rfl⟩ := hc
      rw [List.length_reverse]
      exact chunks_length_mem _ hw _ hdvd d hd
    have h1 : Mutar.flipEndianness v =
        ⟨v.type, ((chunks (bytesPerElement v.type) v.bytes).map List.reverse).flatten⟩ := by
      unfold Mutar.flipEndianness
      rw [if_pos h]
    have h2 : Mutar.flipEndianness
        ⟨v.type, ((chunks (bytesPerElement v.type) v.bytes).map List.reverse).flatten⟩ =
        ⟨v.type, ((chunks (bytesPerElement v.type)
          (((chunks (bytesPerElement v.type) v.bytes).map List.reverse).flatten)).map
            List.reverse).flatten⟩ := by
      unfold Mutar.flipEndianness
      rw [if_pos h]
    have hX : ((chunks (bytesPerElement v.type)
        (((chunks (bytesPerElement v.type) v.bytes).map List.reverse).flatten)).map
          List.reverse).flatten = v.bytes := by
      rw [chunks_of_uniform _ hw _ huni, List.map_map]
      rw [map_id_of_forall (chunks (bytesPerElement v.type) v.bytes)
        (List.reverse ∘ List.reverse) (fun c _ => List.reverse_reverse c)]
      exact chunks_flatten _ hw _
    rw [h1, h2, hX]
  · have h1 : Mutar.flipEndianness v = v := by
      unfold Mutar.flipEndianness
      rw [if_neg h]
    rw [h1, h1]

/-- C7 witness: a two-element Uint32 view. -/
theorem flipEndianness_involutive_witness :
    Mutar.flipEndianness (Mutar.flipEndianness ⟨.uint32, [1, 2, 3, 4, 5, 6, 7, 8]⟩) =
      ⟨.uint32, [1, 2, 3, 4, 5, 6, 7, 8]⟩ :=
  flipEndianness_involutive ⟨.uint32, [1, 2, 3, 4, 5, 6, 7, 8]⟩ (by decide)

/-- C4 counterexample: structural trim (`purge = false`) of an all-zero
Uint32 view yields a view of length zero under either byte order, not the
single element's worth of zeros the claim requires. -/
theorem trim_allZero_counterexample :
    Mutar.trim ⟨.uint32, [0, 0, 0, 0]⟩ false true = ⟨.uint32, []⟩ ∧
    Mutar.trim ⟨.uint32, [0, 0, 0, 0]⟩ false false = ⟨.uint32, []⟩ ∧
    elemCount (Mutar.trim ⟨.uint32, [0, 0, 0, 0]⟩ false true) = 0 := by
  decide

/-- C4 (amended): on an all-zero buffer, trim returns a view of length
zero — both the structural trim (under either byte order) and the purge
variant remove every element. -/
theorem trim_allZero_empty (v : TypedView) (purge le : Bool)
    (hz : ∀ b ∈ v.bytes, b = 0) : Mutar.trim v purge le = ⟨v.type, []⟩ := by
  have hw : 0 < bytesPerElement v.type := bytesPerElement_pos v.type
  have hzc : ∀ c ∈ chunks (bytesPerElement v.type) v.bytes,
      (c.all (fun b => b == 0)) = true := by
    intro c hc
    rw [List.all_eq_true]
    intro b hb
    simp [hz b (chunks_subset _ _ c hc b hb)]
  unfold Mutar.trim
  cases purge with
  | true =>
    rw [if_pos rfl]
    have hfil : (chunks (bytesPerElement v.type) v.bytes).filter
        (fun c => ! c.all (fun b => b == 0)) = [] := by
      rw [List.filter_eq_nil_iff]
      intro c hc
      simp [hzc c hc]
    rw [hfil]
    rfl
  | false =>
    rw [if_neg (by simp)]
    cases le with
    | true =>
      rw [if_pos rfl]
      have hdw : (chunks (bytesPerElement v.type) v.bytes).reverse.dropWhile
          (fun c => c.all (fun b => b == 0)) = [] := by
        rw [List.dropWhile_eq_nil_iff]
        intro c hc
        exact hzc c (List.mem_reverse.mp hc)
      rw [hdw]
      rfl
    | false =>
      rw [if_neg (by simp)]
      have hdw : (chunks (bytesPerElement v.type) v.bytes).dropWhile
          (fun c => c.all (fun b => b == 0)) = [] := by
        rw [List.dropWhile_eq_nil_iff]
        intro c hc
        exact hzc c hc
      rw [hdw]
      rfl

/-- C4 amended witness: an all-zero Uint16 view trims to length zero. -/
theorem trim_allZero_empty_witness :
    Mutar.trim ⟨.uint16, [0, 0]⟩ false true = ⟨.uint16, []⟩ :=
  trim_allZero_empty ⟨.uint16, [0, 0]⟩ false true (by decide)

/-- C3: raw conversion of a view whose byte length is not a multiple of the
target width pads with `missing = width - (byteLength mod width)` zero
bytes — appended for little endian, prepended for big endian — giving a
buffer of `byteLength + missing` bytes, an exact multiple of the width. -/
theorem convert_raw_padding (v : TypedView) (tgt : ElemType) (trimMode : TrimMode)
    (le : Bool) (hnd : v.bytes.length % bytesPerElement tgt ≠ 0) :
    Mutar.convertRaw v tgt trimMode le = ⟨tgt,
        if le then v.bytes ++
          List.replicate (bytesPerElement tgt - v.bytes.length % bytesPerElement tgt) 0
        else List.replicate
          (bytesPerElement tgt - v.bytes.length % bytesPerElement tgt) 0 ++ v.bytes⟩ ∧
      (Mutar.convertRaw v tgt trimMode le).bytes.length =
        v.bytes.length + (bytesPerElement tgt - v.bytes.length % bytesPerElement tgt) ∧
      bytesPerElement tgt ∣ (Mutar.convertRaw v tgt trimMode le).bytes.length := by
  have hw : 0 < bytesPerElement tgt := bytesPerElement_pos tgt
  have heq : Mutar.convertRaw v tgt trimMode le = ⟨tgt,
      if le then v.bytes ++
        List.replicate (bytesPerElement tgt - v.bytes.length % bytesPerElement tgt) 0
      else List.replicate
        (bytesPerElement tgt - v.bytes.length % bytesPerElement tgt) 0 ++ v.bytes⟩ := by
    unfold Mutar.convertRaw
    rw [if_neg hnd]
  have hlen : (Mutar.convertRaw v tgt trimMode le).bytes.length =
      v.bytes.length + (bytesPerElement tgt - v.bytes.length % bytesPerElement tgt) := by
    rw [heq]
    cases le with
    | true => simp [List.length_append, List.length_replicate]
    | false => simp [List.length_append, List.length_replicate]; omega
  refine ⟨heq, hlen, ?_⟩
  rw [hlen]
  have hmod := Nat.div_add_mod v.bytes.length (bytesPerElement tgt)
  have hmlt := Nat.mod_lt v.bytes.length hw
  have hd : bytesPerElement tgt * (v.bytes.length / bytesPerElement tgt + 1) =
      bytesPerElement tgt * (v.bytes.length / bytesPerElement tgt) +
        bytesPerElement tgt := by ring
  exact ⟨v.bytes.length / bytesPerElement tgt + 1, by omega⟩

/-- C3 witness: a two-byte Uint8 view converted raw to Uint32 in both byte
orders. -/
theorem convert_raw_padding_witness :
    (Mutar.convertRaw ⟨.uint8, [1, 2]⟩ .uint32 .off true = ⟨.uint32,
        if true then [1, 2] ++ List.replicate (bytesPerElement .uint32 - [1, 2].length % bytesPerElement .uint32) 0
        else List.replicate (bytesPerElement .uint32 - [1, 2].length % bytesPerElement .uint32) 0 ++ [1, 2]⟩ ∧
      (Mutar.convertRaw ⟨.uint8, [1, 2]⟩ .uint32 .off true).bytes.length =
        [1, 2].length + (bytesPerElement .uint32 - [1, 2].length % bytesPerElement .uint32) ∧
      bytesPerElement .uint32 ∣ (Mutar.convertRaw ⟨.uint8, [1, 2]⟩ .uint32 .off true).bytes.length) ∧
    (Mutar.convertRaw ⟨.uint8, [1, 2]⟩ .uint32 .off false = ⟨.uint32,
        if false then [1, 2] ++ List.replicate (bytesPerElement .uint32 - [1, 2].length % bytesPerElement .uint32) 0
        else List.replicate (bytesPerElement .uint32 - [1, 2].length % bytesPerElement .uint32) 0 ++ [1, 2]⟩ ∧
      (Mutar.convertRaw ⟨.uint8, [1, 2]⟩ .uint32 .off false).bytes.length =
        [1, 2].length + (bytesPerElement .uint32 - [1, 2].length % bytesPerElement .uint32) ∧
      bytesPerElement .uint32 ∣ (Mutar.convertRaw ⟨.uint8, [1, 2]⟩ .uint32 .off false).bytes.length) :=
  ⟨convert_raw_padding ⟨.uint8, [1, 2]⟩ .uint32 .off true (by decide),
   convert_raw_padding ⟨.uint8, [1, 2]⟩ .uint32 .off false (by decide)⟩

/-- C6: the Uint32 view holding 400 in little endian, raw-converted to
Uint8 with trim and back to Uint32, decodes to the single value 400 again
(the trimmed little-endian padding is re-appended at the end). -/
theorem roundtrip_400_uint32 :
    Mutar.convert ⟨.uint32, [144, 1, 0, 0]⟩ .uint8 .off .on true =
      .ok ⟨.uint8, [144, 1]⟩ ∧
    Mutar.convert ⟨.uint8, [144, 1]⟩ .uint32 .off .off true =
      .ok ⟨.uint32, [144, 1, 0, 0]⟩ ∧
    elems ⟨.uint32, [144, 1, 0, 0]⟩ true = [400] :=
  ⟨rfl, rfl, by decide⟩

theorem convertIntElem_noTest (src tgt : ElemType) (le : Bool) (c : List Nat) :
    Mutar.convertIntElem src tgt false le c =
      .ok (encodeElem tgt le (decodeElem src le c)) := by
  unfold Mutar.convertIntElem
  simp

/-- Value-preserving conversion without an active integrity test (forced,
or target at least as wide): every element value is re-encoded, one slot
per source element. -/
theorem convertInt_wide (v : TypedView) (tgt : ElemType) (force : Bool) (le : Bool)
    (h : (!force && decide (bytesPerElement tgt < bytesPerElement v.type)) = false) :
    Mutar.convertInt v tgt force le = .ok (ofElems tgt le (elems v le)) := by
  unfold Mutar.convertInt
  rw [h]
  show (match mapME (Mutar.convertIntElem v.type tgt false le)
      (chunks (bytesPerElement v.type) v.bytes) with
    | Except.error e => Except.error e
    | Except.ok slots => Except.ok (⟨tgt, slots.flatten⟩ : TypedView)) = _
  rw [mapME_ok _ (fun c => encodeElem tgt le (decodeElem v.type le c)) _
    (fun c _ => convertIntElem_noTest v.type tgt le c)]
  show Except.ok ⟨tgt, _⟩ = Except.ok (ofElems tgt le (elems v le))
  congr 1
  unfold ofElems encBytes elems
  rw [List.map_map]
  rfl

/-- C5: concatenating a Uint32 view with a Uint16 view and no force
modifier raises the type-mismatch TypeError carrying both involved types;
with force and intMode no error is raised and the element count of the
result is the sum of both operands' counts. -/
theorem concat_mismatch_force_intMode (a b : TypedView) (sysLE : Bool)
    (ha : a.type = .uint32) (hb : b.type = .uint16) (hwa : WF a) (hwb : WF b) :
    Mutar.concat a [b] false .off .off sysLE =
      .error (.typeMismatch .uint32 .uint16) ∧
    ∃ r, Mutar.concat a [b] true .off .on sysLE = .ok r ∧
      elemCount r = elemCount a + elemCount b := by
  have hne : b.type ≠ a.type := by rw [ha, hb]; decide
  constructor
  · unfold Mutar.concat
    rw [if_neg (by simp)]
    have hstep : Mutar.concatStep a
        (false || (match IntMode.off with | .off => false | _ => true)) .off .off sysLE b =
        .error (.typeMismatch a.type b.type) := by
      unfold Mutar.concatStep
      rw [if_neg hne, if_neg (by simp)]
    show (match mapME (Mutar.concatStep a
        (false || (match IntMode.off with | .off => false | _ => true)) .off .off sysLE)
        [b] with
      | Except.error e => Except.error e
      | Except.ok pieces =>
        Except.ok (ofElems a.type sysLE (elems a sysLE ++ pieces.flatten))) = _
    rw [show mapME (Mutar.concatStep a
        (false || (match IntMode.off with | .off => false | _ => true)) .off .off sysLE)
        [b] = .error (.typeMismatch a.type b.type) by
      unfold mapME
      rw [hstep]]
    rw [ha, hb]
  · have hconv : Mutar.convert b a.type .on .off sysLE =
        .ok (ofElems a.type sysLE (elems b sysLE)) := by
      unfold Mutar.convert
      exact convertInt_wide b a.type false sysLE (by rw [ha, hb]; decide)
    have hstep : Mutar.concatStep a
        (true || (match IntMode.on with | .off => false | _ => true)) .off .on sysLE b =
        .ok (elems (ofElems a.type sysLE (elems b sysLE)) sysLE) := by
      unfold Mutar.concatStep
      rw [if_neg hne, if_pos (by simp), hconv]
    refine ⟨ofElems a.type sysLE (elems a sysLE ++
      (elems (ofElems a.type sysLE (elems b sysLE)) sysLE ++ [].flatten)), ?_, ?_⟩
    · unfold Mutar.concat
      rw [if_neg (by simp)]
      show (match mapME (Mutar.concatStep a
          (true || (match IntMode.on with | .off => false | _ => true)) .off .on sysLE)
          [b] with
        | Except.error e => Except.error e
        | Except.ok pieces =>
          Except.ok (ofElems a.type sysLE (elems a sysLE ++ pieces.flatten))) = _
      rw [show mapME (Mutar.concatStep a
          (true || (match IntMode.on with | .off => false | _ => true)) .off .on sysLE)
          [b] = .ok [elems (ofElems a.type sysLE (elems b sysLE)) sysLE] by
        unfold mapME
        rw [hstep]
        rfl]
      rfl
    · rw [ofElems_count]
      have h1 : (elems a sysLE).length = elemCount a := elems_length a sysLE hwa.2
      have h2 : (elems (ofElems a.type sysLE (elems b sysLE)) sysLE).length =
          elemCount (ofElems a.type sysLE (elems b sysLE)) :=
        elems_length _ sysLE (ofElems_wf _ _ _).2
      rw [List.length_append, h1]
      simp only [List.flatten_nil, List.append_nil]
      rw [h2, ofElems_count, elems_length b sysLE hwb.2]

/-- C5 witness: concrete one-element Uint32 and Uint16 views. -/
theorem concat_mismatch_force_intMode_witness :
    Mutar.concat ⟨.uint32, [1, 0, 0, 0]⟩ [⟨.uint16, [7, 0]⟩] false .off .off true =
      .error (.typeMismatch .uint32 .uint16) ∧
    ∃ r, Mutar.concat ⟨.uint32, [1, 0, 0, 0]⟩ [⟨.uint16, [7, 0]⟩] true .off .on true =
        .ok r ∧
      elemCount r = elemCount (⟨.uint32, [1, 0, 0, 0]⟩ : TypedView) +
        elemCount (⟨.uint16, [7, 0]⟩ : TypedView) :=
  concat_mismatch_force_intMode ⟨.uint32, [1, 0, 0, 0]⟩ ⟨.uint16, [7, 0]⟩ true
    rfl rfl (by decide) (by decide)

theorem decodeNat_true (bs : List Nat) : decodeNat true bs = leVal bs := rfl

theorem convertIntElem_test (src tgt : ElemType) (le : Bool) (c : List Nat) :
    Mutar.convertIntElem src tgt true le c =
      if decodeElem tgt le (c.take (bytesPerElement tgt)) = decodeElem src le c
      then .ok (encodeElem tgt le (decodeElem src le c))
      else .error .integrityError := by
  unfold Mutar.convertIntElem
  simp

/-- The intMode integrity comparison in little-endian order holds exactly
when the decoded element value is representable at the target type. -/
theorem narrow_check (src tgt : ElemType) (c : List Nat)
    (hc : c.length = bytesPerElement src) (hb : ∀ b ∈ c, b < 256)
    (hn : bytesPerElement tgt < bytesPerElement src) :
    (decodeElem tgt true (c.take (bytesPerElement tgt)) = decodeElem src true c ↔
      representable tgt (decodeElem src true c)) := by
  have hU : leVal c < modulus src := by
    have := leVal_lt c hb
    rw [hc] at this
    exact this
  have htake : leVal (c.take (bytesPerElement tgt)) =
      leVal c % 256 ^ bytesPerElement tgt :=
    leVal_take c _ (by omega) hb
  have hdvd : modulus tgt ∣ modulus src := by
    unfold modulus
    exact pow_dvd_pow _ (Nat.le_of_lt hn)
  have hpos : 0 < modulus tgt := by
    unfold modulus
    positivity
  unfold decodeElem
  rw [decodeNat_true, decodeNat_true, htake]
  exact decAdj_trunc_eq_iff (isSigned src) (isSigned tgt) (modulus src) (modulus tgt)
    hdvd hpos (leVal c) hU

theorem convertIntElem_narrow (src tgt : ElemType) (c : List Nat)
    (hc : c.length = bytesPerElement src) (hb : ∀ b ∈ c, b < 256)
    (hn : bytesPerElement tgt < bytesPerElement src) :
    (representable tgt (decodeElem src true c) →
      Mutar.convertIntElem src tgt true true c =
        .ok (encodeElem tgt true (decodeElem src true c))) ∧
    (¬ representable tgt (decodeElem src true c) →
      Mutar.convertIntElem src tgt true true c = .error .integrityError) := by
  have hiff := narrow_check src tgt c hc hb hn
  constructor
  · intro hrep
    rw [convertIntElem_test, if_pos (hiff.mpr hrep)]
  · intro hrep
    rw [convertIntElem_test, if_neg (fun heq => hrep (hiff.mp heq))]

theorem forall_elems_iff_chunks (v : TypedView) (le : Bool) (p : Int → Prop) :
    (∀ x ∈ elems v le, p x) ↔
      (∀ c ∈ chunks (bytesPerElement v.type) v.bytes, p (decodeElem v.type le c)) := by
  unfold elems
  constructor
  · intro h c hc
    exact h _ (List.mem_map_of_mem _ hc)
  · intro h x hx
    obtain ⟨c, hc, rfl⟩ := List.mem_map.mp hx
    exact h c hc

/-- C1 (amended): for a strictly narrower target type, value-preserving
conversion in little-endian order raises `IntegrityError` exactly when
some source element's decoded value cannot be reproduced at the narrower
width, completes without error when every element fits, and with the
force flag (either byte order) never raises, keeping each element as its
value truncated to the target width.  (As stated the claim also covers
big-endian order, where the check re-reads the most-significant leading
bytes and raises even for fitting values — see the counterexample.) -/
theorem convert_intMode_valuePreserving (v : TypedView) (tgt : ElemType)
    (hwf : WF v) (hn : bytesPerElement tgt < bytesPerElement v.type) :
    (Mutar.convert v tgt .on .off true = .error .integrityError ↔
      ¬ ∀ x ∈ elems v true, representable tgt x) ∧
    ((∀ x ∈ elems v true, representable tgt x) →
      Mutar.convert v tgt .on .off true = .ok (ofElems tgt true (elems v true))) ∧
    (∀ le, Mutar.convert v tgt .force .off le =
      .ok (ofElems tgt le ((elems v le).map (toWidth tgt)))) := by
  obtain ⟨hb, hdvd⟩ := hwf
  have hw : 0 < bytesPerElement v.type := bytesPerElement_pos v.type
  have hconv : Mutar.convert v tgt .on .off true = Mutar.convertInt v tgt false true := rfl
  have htest : (!false && decide (bytesPerElement tgt < bytesPerElement v.type)) = true := by
    simp [hn]
  have hbody : Mutar.convertInt v tgt false true =
      (match mapME (Mutar.convertIntElem v.type tgt true true)
          (chunks (bytesPerElement v.type) v.bytes) with
        | Except.error e => Except.error e
        | Except.ok slots => Except.ok (⟨tgt, slots.flatten⟩ : TypedView)) := by
    unfold Mutar.convertInt
    rw [htest]
  have hdi := mapME_dichotomy (Mutar.convertIntElem v.type tgt true true)
    (fun c => encodeElem tgt true (decodeElem v.type true c))
    (fun c => representable tgt (decodeElem v.type true c))
    (chunks (bytesPerElement v.type) v.bytes)
    (fun c hc => convertIntElem_narrow v.type tgt c
      (chunks_length_mem _ hw _ hdvd c hc)
      (fun b hbc => hb b (chunks_subset _ _ c hc b hbc)) hn)
  have hforall := forall_elems_iff_chunks v true (representable tgt)
  have hokcase : (∀ x ∈ elems v true, representable tgt x) →
      Mutar.convert v tgt .on .off true = .ok (ofElems tgt true (elems v true)) := by
    intro hall
    rw [hconv, hbody, hdi.1 (hforall.mp hall)]
    show Except.ok (⟨tgt, _⟩ : TypedView) = _
    congr 1
    unfold ofElems encBytes elems
    rw [List.map_map]
    rfl
  refine ⟨⟨?_, ?_⟩, hokcase, ?_⟩
  · intro herr
    by_contra hall
    rw [hokcase hall] at herr
    exact Except.noConfusion herr
  · intro hnall
    rw [hconv, hbody, hdi.2 (fun hall => hnall (hforall.mpr hall))]
  · intro le
    have hforce : Mutar.convert v tgt .force .off le = Mutar.convertInt v tgt true le := rfl
    rw [hforce, convertInt_wide v tgt true le (by simp)]
    congr 1
    unfold ofElems encBytes
    rw [List.map_map]
    congr 1
    exact congrArg List.flatten (map_eq_of_forall (elems v le)
      (encodeElem tgt le ∘ toWidth tgt) (encodeElem tgt le)
      (fun x _ => encodeElem_toWidth tgt le x)).symm

/-- C1 counterexample: the big-endian Uint16 view holding 200 — a value
that fits in Uint8 — still raises IntegrityError on a value-preserving
narrowing without force, because the check re-decodes the element's
leading (most-significant) byte. -/
theorem convert_intMode_bigEndian_counterexample :
    (∀ x ∈ elems ⟨.uint16, [0, 200]⟩ false, representable .uint8 x) ∧
    Mutar.convert ⟨.uint16, [0, 200]⟩ .uint8 .on .off false =
      .error .integrityError :=
  ⟨by decide, rfl⟩

/-- C1 witness: narrowing the little-endian Uint16 view holding 400 to
Uint8. -/
theorem convert_intMode_valuePreserving_witness :
    (Mutar.convert ⟨.uint16, [144, 1]⟩ .uint8 .on .off true = .error .integrityError ↔
      ¬ ∀ x ∈ elems ⟨.uint16, [144, 1]⟩ true, representable .uint8 x) ∧
    ((∀ x ∈ elems ⟨.uint16, [144, 1]⟩ true, representable .uint8 x) →
      Mutar.convert ⟨.uint16, [144, 1]⟩ .uint8 .on .off true =
        .ok (ofElems .uint8 true (elems ⟨.uint16, [144, 1]⟩ true))) ∧
    (∀ le, Mutar.convert ⟨.uint16, [144, 1]⟩ .uint8 .force .off le =
      .ok (ofElems .uint8 le ((elems ⟨.uint16, [144, 1]⟩ le).map (toWidth .uint8)))) :=
  convert_intMode_valuePreserving ⟨.uint16, [144, 1]⟩ .uint8 (by decide) (by decide)
